import Mathlib

/-!
Verification of the `channel_est` OFDM receive pipeline against its design
specification.

Modelling conventions, used throughout this file:

* `num::Complex<f32>` is modelled exactly.  The stages whose behaviour is
  decided by ring operations and order comparisons only (the packet trigger in
  `pkt_trigger.rs` and the correlation aligner in `lts_align.rs`) use the
  pair type `Cpx K` over a linear ordered commutative ring `K` (the idealised
  sample field `ℝ` is an instance; concrete runs in witnesses use `ℤ`, whose
  arithmetic the kernel evaluates).  The stages that use transcendental
  functions (`cfo.rs`, `equalization.rs`, `parse_80211.rs`) are modelled over
  Mathlib's `ℂ` with exact real arithmetic.
* `u64` and `usize` become `ℕ`.  Rust `usize` subtraction and slice indexing
  are checked operations: an underflow or an out-of-range slice is a panic.
  Functions that can panic are modelled with `Option`, `none` standing for a
  panic (this also covers a failed `assert!`).
* `samp.norm() >= t` (a comparison of the f32 magnitude, i.e. the square root
  of `norm_sqr`) is modelled by the exact equivalent predicate
  `t ≤ 0 ∨ t * t ≤ norm_sqr samp`, which over the reals is the same
  proposition since the magnitude is nonnegative.
-/

/-- Model of `num::Complex` over an ordered commutative ring (used for the
energy based stages). -/
structure Cpx (K : Type) where
  re : K
  im : K
deriving DecidableEq

section CpxOps

variable {K : Type} [LinearOrderedCommRing K]

def Cpx.zero : Cpx K := ⟨0, 0⟩

def Cpx.add (a b : Cpx K) : Cpx K := ⟨a.re + b.re, a.im + b.im⟩

def Cpx.mul (a b : Cpx K) : Cpx K :=
  ⟨a.re * b.re - a.im * b.im, a.re * b.im + a.im * b.re⟩

/-- Complex conjugate. -/
def Cpx.conj (a : Cpx K) : Cpx K := ⟨a.re, -a.im⟩

/-- Model of `Complex::norm_sqr`. -/
def Cpx.normSq (a : Cpx K) : K := a.re * a.re + a.im * a.im

/-- Model of `.sum::<Complex<f32>>()`. -/
def Cpx.listSum (l : List (Cpx K)) : Cpx K := l.foldr Cpx.add Cpx.zero

lemma Cpx.normSq_nonneg (a : Cpx K) : 0 ≤ Cpx.normSq a :=
  add_nonneg (mul_self_nonneg _) (mul_self_nonneg _)

/-- The cross-correlation vector of `lts_align.rs` lines 9-18:
`corr[i] = |Σ_k conj(lts[k]) · pkt[i+k]|²` for `i ∈ [0, N − L)`.
Building the loop range `0..pkt.len() - lts.len()` uses checked `usize`
subtraction in Rust; the guard for that lives in `lts_align` below. -/
def alignCorr (pkt lts : List (Cpx K)) : List K :=
  (List.range (pkt.length - lts.length)).map fun i =>
    Cpx.normSq (Cpx.listSum ((List.range lts.length).map fun k =>
      Cpx.mul (Cpx.conj (lts.getD k Cpx.zero)) (pkt.getD (i + k) Cpx.zero)))

/-- The value examined at step `i` of the argmax loop: `corr[i] * corr[i + L]`. -/
def alignVal (pkt lts : List (Cpx K)) (i : ℕ) : K :=
  (alignCorr pkt lts).getD i 0 * (alignCorr pkt lts).getD (i + lts.length) 0

/-- One iteration of the argmax loop of `lts_align.rs` lines 21-28:
`if val > max { max = val; max_idx = i }`. -/
def argmaxStep (corr : List K) (L : ℕ) (acc : K × ℕ) (i : ℕ) : K × ℕ :=
  if acc.1 < corr.getD i 0 * corr.getD (i + L) 0 then
    (corr.getD i 0 * corr.getD (i + L) 0, i)
  else acc

/-- The `max_idx` computed by the loop of `lts_align.rs` lines 21-28, starting
from `(max, max_idx) = (0., 0)`. -/
def alignArgmax (pkt lts : List (Cpx K)) : ℕ :=
  ((List.range (pkt.length - 2 * lts.length)).foldl
    (argmaxStep (alignCorr pkt lts) lts.length) ((0 : K), (0 : ℕ))).2

/-- Model of `lts_align` (lts_align.rs lines 7-32).  The two eager `usize`
subtractions `pkt.len() - lts.len()` and `pkt.len() - 2*lts.len()` panic
unless `2L ≤ N` (which subsumes `L ≤ N`), and the final
`max_idx - lts.len()/2` panics when `max_idx < L/2`; panics are `none`. -/
def lts_align (pkt lts : List (Cpx K)) : Option ℕ :=
  if 2 * lts.length ≤ pkt.length then
    if lts.length / 2 ≤ alignArgmax pkt lts then
      some (alignArgmax pkt lts - lts.length / 2)
    else none
  else none

lemma alignCorr_getD_nonneg (pkt lts : List (Cpx K)) (i : ℕ) :
    0 ≤ (alignCorr pkt lts).getD i 0 := by
  by_cases h : i < (alignCorr pkt lts).length
  · rw [List.getD_eq_getElem _ _ h]
    simp only [alignCorr, List.getElem_map]
    exact Cpx.normSq_nonneg _
  · rw [List.getD_eq_default _ _ (Nat.le_of_not_lt h)]

lemma alignVal_nonneg (pkt lts : List (Cpx K)) (i : ℕ) :
    0 ≤ alignVal pkt lts i :=
  mul_nonneg (alignCorr_getD_nonneg pkt lts i) (alignCorr_getD_nonneg pkt lts _)

/-- Specification of the argmax fold: it computes the upper bound of all the
inspected values, and (unless everything was at most the initial `0`) the
earliest index attaining that bound. -/
lemma argmax_fold_spec (pkt lts : List (Cpx K)) (n : ℕ) :
    (∀ j < n, alignVal pkt lts j ≤
        ((List.range n).foldl (argmaxStep (alignCorr pkt lts) lts.length)
          ((0 : K), (0 : ℕ))).1) ∧
      (((List.range n).foldl (argmaxStep (alignCorr pkt lts) lts.length)
          ((0 : K), (0 : ℕ))) = ((0 : K), (0 : ℕ)) ∨
        (0 < ((List.range n).foldl (argmaxStep (alignCorr pkt lts) lts.length)
            ((0 : K), (0 : ℕ))).1 ∧
          ((List.range n).foldl (argmaxStep (alignCorr pkt lts) lts.length)
            ((0 : K), (0 : ℕ))).2 < n ∧
          alignVal pkt lts
              (((List.range n).foldl (argmaxStep (alignCorr pkt lts) lts.length)
                ((0 : K), (0 : ℕ))).2) =
            ((List.range n).foldl (argmaxStep (alignCorr pkt lts) lts.length)
              ((0 : K), (0 : ℕ))).1 ∧
          ∀ j < ((List.range n).foldl (argmaxStep (alignCorr pkt lts) lts.length)
              ((0 : K), (0 : ℕ))).2,
            alignVal pkt lts j <
              ((List.range n).foldl (argmaxStep (alignCorr pkt lts) lts.length)
                ((0 : K), (0 : ℕ))).1)) := by
  induction n with
  | zero => exact ⟨fun j hj => absurd hj (Nat.not_lt_zero j), Or.inl rfl⟩
  | succ n ih =>
    obtain ⟨ihb, ihc⟩ := ih
    rw [List.range_succ, List.foldl_append, List.foldl_cons, List.foldl_nil]
    set r := (List.range n).foldl (argmaxStep (alignCorr pkt lts) lts.length)
      ((0 : K), (0 : ℕ)) with hr
    have hstep : argmaxStep (alignCorr pkt lts) lts.length r n =
        if r.1 < alignVal pkt lts n then (alignVal pkt lts n, n) else r := rfl
    rw [hstep]
    by_cases hv : r.1 < alignVal pkt lts n
    · rw [if_pos hv]
      refine ⟨?_, Or.inr ?_⟩
      · intro j hj
        rcases Nat.lt_succ_iff_lt_or_eq.mp hj with hj' | hj'
        · exact le_of_lt (lt_of_le_of_lt (ihb j hj') hv)
        · subst hj'; exact le_refl _
      · refine ⟨?_, Nat.lt_succ_self n, rfl, ?_⟩
        · rcases ihc with h0 | ⟨hpos, _, _, _⟩
          · have : r.1 = 0 := by rw [h0]
            simpa [this] using hv
          · exact lt_trans hpos hv
        · intro j hj
          exact lt_of_le_of_lt (ihb j hj) hv
    · rw [if_neg hv]
      refine ⟨?_, ?_⟩
      · intro j hj
        rcases Nat.lt_succ_iff_lt_or_eq.mp hj with hj' | hj'
        · exact ihb j hj'
        · subst hj'; exact le_of_not_lt hv
      · rcases ihc with h0 | ⟨hpos, hlt, heq, hstrict⟩
        · exact Or.inl h0
        · exact Or.inr ⟨hpos, Nat.lt_succ_of_lt hlt, heq, hstrict⟩

/-- The argmax loop returns the least maximising index, provided the
values are nonnegative (which `alignVal` always is). -/
lemma alignArgmax_eq_least (pkt lts : List (Cpx K)) (idx : ℕ)
    (hidx : idx < pkt.length - 2 * lts.length)
    (hmax : ∀ j < pkt.length - 2 * lts.length,
      alignVal pkt lts j ≤ alignVal pkt lts idx)
    (hleast : ∀ j < idx, alignVal pkt lts j < alignVal pkt lts idx) :
    alignArgmax pkt lts = idx := by
  obtain ⟨hbound, hcase⟩ := argmax_fold_spec pkt lts (pkt.length - 2 * lts.length)
  rcases hcase with h0 | ⟨hpos, hlt, heq, hstrict⟩
  · have hz : ((List.range (pkt.length - 2 * lts.length)).foldl
        (argmaxStep (alignCorr pkt lts) lts.length) ((0 : K), (0 : ℕ))).1 = 0 := by
      rw [h0]
    have hargz : alignArgmax pkt lts = 0 := by
      unfold alignArgmax; rw [h0]
    rcases Nat.eq_zero_or_pos idx with h | h
    · rw [hargz, h]
    · exfalso
      have h1 : alignVal pkt lts 0 < alignVal pkt lts idx := hleast 0 h
      have h2 : alignVal pkt lts idx ≤ 0 := by
        have := hbound idx hidx; rwa [hz] at this
      exact absurd (lt_of_le_of_lt (alignVal_nonneg pkt lts 0) h1)
        (not_lt_of_le h2)
  · set r := (List.range (pkt.length - 2 * lts.length)).foldl
      (argmaxStep (alignCorr pkt lts) lts.length) ((0 : K), (0 : ℕ)) with hrdef
    have harg : alignArgmax pkt lts = r.2 := rfl
    rcases lt_trichotomy r.2 idx with h | h | h
    · exfalso
      have h1 : alignVal pkt lts r.2 < alignVal pkt lts idx := hleast _ h
      have h2 : alignVal pkt lts idx ≤ r.1 := hbound idx hidx
      rw [heq] at h1
      exact absurd h2 (not_le_of_lt h1)
    · rw [harg, h]
    · exfalso
      have h1 : alignVal pkt lts idx < r.1 := hstrict idx h
      have h2 : alignVal pkt lts idx ≤ r.1 := le_of_lt h1
      have h3 : r.1 ≤ alignVal pkt lts idx := by
        rw [← heq]; exact hmax r.2 hlt
      exact absurd h1 (not_lt_of_le h3)

end CpxOps

/-- Integer-component samples, used to evaluate concrete runs in witnesses
and counterexamples (kernel reduction is exact on `ℤ`). -/
abbrev CpxZ := Cpx ℤ

/-- CLAIM C6: on a buffer with `pkt.len() ≥ 2·L`, `lts_align` returns
`argmax − L/2` where `argmax` is the smallest index in `[0, N − 2L)`
maximising `c[i]·c[i+L]` (strict greater-than, ties to the earliest index),
provided that index is at least `L/2`. -/
theorem lts_align_first_peak {K : Type} [LinearOrderedCommRing K]
    (pkt lts : List (Cpx K)) (idx : ℕ)
    (hlen : 2 * lts.length ≤ pkt.length)
    (hidx : idx < pkt.length - 2 * lts.length)
    (hmax : ∀ j < pkt.length - 2 * lts.length,
      alignVal pkt lts j ≤ alignVal pkt lts idx)
    (hleast : ∀ j < idx, alignVal pkt lts j < alignVal pkt lts idx)
    (hge : lts.length / 2 ≤ idx) :
    lts_align pkt lts = some (idx - lts.length / 2) := by
  have harg : alignArgmax pkt lts = idx :=
    alignArgmax_eq_least pkt lts idx hidx hmax hleast
  unfold lts_align
  rw [if_pos hlen, harg, if_pos hge]

/-- Witness for C6 on a concrete buffer: `lts = [1, 0]`, peak at index 2. -/
theorem lts_align_first_peak_witness :
    (2 * ([⟨1, 0⟩, ⟨0, 0⟩] : List CpxZ).length ≤
        ([⟨0,0⟩, ⟨0,0⟩, ⟨1,0⟩, ⟨0,0⟩, ⟨1,0⟩, ⟨0,0⟩, ⟨0,0⟩] : List CpxZ).length) ∧
      lts_align ([⟨0,0⟩, ⟨0,0⟩, ⟨1,0⟩, ⟨0,0⟩, ⟨1,0⟩, ⟨0,0⟩, ⟨0,0⟩] : List CpxZ)
        ([⟨1, 0⟩, ⟨0, 0⟩] : List CpxZ) = some (2 - ([⟨1, 0⟩, ⟨0, 0⟩] : List CpxZ).length / 2) :=
  ⟨by decide,
    lts_align_first_peak _ _ 2 (by decide) (by decide) (by decide) (by decide)
      (by decide)⟩

/-- CLAIM C1 (counterexample): on a valid-length buffer (9 samples, `2L = 8`)
with a nonzero LTS but no correlation peak, every `c[i]·c[i+L]` is zero, so
`max_idx = 0 < L/2` and the final `usize` subtraction in `lts_align`
underflows: the function panics (modelled `none`) instead of returning a
noisy offset. -/
theorem lts_align_no_peak_panics :
    lts_align (List.replicate 9 (Cpx.zero : CpxZ))
      ([⟨1, 0⟩, Cpx.zero, Cpx.zero, Cpx.zero] : List CpxZ) = none := by
  decide

/-- CLAIM C1 (amended): `lts_align` returns normally precisely on buffers
whose argmax is at least `L/2`; with a valid length but no clear peak it
panics via `usize` underflow rather than producing noisy output. -/
theorem lts_align_returns_iff_peak {K : Type} [LinearOrderedCommRing K]
    (pkt lts : List (Cpx K))
    (hlen : 2 * lts.length ≤ pkt.length) :
    (lts_align pkt lts).isSome = true ↔
      lts.length / 2 ≤ alignArgmax pkt lts := by
  unfold lts_align
  rw [if_pos hlen]
  by_cases hidx : lts.length / 2 ≤ alignArgmax pkt lts
  · simp [hidx]
  · simp [hidx]

/-- Witness for the amended C1 on a concrete buffer with a usable peak. -/
theorem lts_align_returns_iff_peak_witness :
    (([⟨1, 0⟩, ⟨0, 0⟩] : List CpxZ).length / 2 ≤
        alignArgmax ([⟨0,0⟩, ⟨0,0⟩, ⟨0,0⟩, ⟨1,0⟩, ⟨0,0⟩, ⟨1,0⟩, ⟨0,0⟩, ⟨0,0⟩] : List CpxZ)
          ([⟨1, 0⟩, ⟨0, 0⟩] : List CpxZ)) ∧
      (lts_align ([⟨0,0⟩, ⟨0,0⟩, ⟨0,0⟩, ⟨1,0⟩, ⟨0,0⟩, ⟨1,0⟩, ⟨0,0⟩, ⟨0,0⟩] : List CpxZ)
        ([⟨1, 0⟩, ⟨0, 0⟩] : List CpxZ)).isSome = true :=
  ⟨by decide,
    (lts_align_returns_iff_peak
      ([⟨0,0⟩, ⟨0,0⟩, ⟨0,0⟩, ⟨1,0⟩, ⟨0,0⟩, ⟨1,0⟩, ⟨0,0⟩, ⟨0,0⟩] : List CpxZ)
      ([⟨1, 0⟩, ⟨0, 0⟩] : List CpxZ) (by decide)).mpr (by decide)⟩

/-! ## Packet trigger (`pkt_trigger.rs`) -/

/-- The fields of `ChannelEstConfig` consulted by `PktTrigger` (config.rs
lines 13-17): `stabilize_samps : u64`, `power_trig : f32`,
`pkt_spacing : u64`. -/
structure TrigCfg (K : Type) where
  stabilize_samps : ℕ
  power_trig : K
  pkt_spacing : ℕ
deriving DecidableEq

/-- `PktTriggerState` (pkt_trigger.rs lines 5-13). -/
inductive TrigState
  | skip : ℕ → TrigState
  | idle : TrigState
  | packet : ℕ → TrigState
deriving DecidableEq

/-- `PktTrigger` (pkt_trigger.rs lines 18-24); the `VecDeque` history is a
list with `push_back` appending and `pop_front` removing the head. -/
structure PktTrigger (K : Type) where
  cfg : TrigCfg K
  hist : List (Cpx K)
  state : TrigState
deriving DecidableEq

section Trigger

variable {K : Type} [LinearOrderedCommRing K]

/-- Exact model of `samp.norm() >= t` (pkt_trigger.rs line 60): since the
magnitude is the nonnegative square root of `norm_sqr`, the comparison holds
iff `t ≤ 0` or `t² ≤ norm_sqr samp`. -/
def magGEb (t : K) (s : Cpx K) : Bool := decide (t ≤ 0 ∨ t * t ≤ Cpx.normSq s)

/-- `PktTrigger::push_samp` (pkt_trigger.rs lines 36-80). -/
def PktTrigger.push_samp (tr : PktTrigger K) (samp : Cpx K) :
    PktTrigger K × Option (List (Cpx K)) :=
  match tr.state with
  | .skip n =>
    if tr.cfg.stabilize_samps ≤ n then ({ tr with state := .idle }, none)
    else ({ tr with state := .skip (n + 1) }, none)
  | .idle =>
    if tr.cfg.power_trig < Cpx.normSq samp then
      ({ tr with hist := tr.hist ++ [samp], state := .packet 0 }, none)
    else if tr.cfg.pkt_spacing < (tr.hist ++ [samp]).length then
      ({ tr with hist := (tr.hist ++ [samp]).tail }, none)
    else ({ tr with hist := tr.hist ++ [samp] }, none)
  | .packet n =>
    if magGEb tr.cfg.power_trig samp then
      ({ tr with hist := tr.hist ++ [samp], state := .packet 0 }, none)
    else if tr.cfg.pkt_spacing ≤ n then
      ({ tr with
          hist := (tr.hist ++ [samp]).drop
            ((tr.hist ++ [samp]).length - tr.cfg.pkt_spacing),
          state := .idle },
        some (tr.hist ++ [samp]))
    else ({ tr with hist := tr.hist ++ [samp], state := .packet (n + 1) }, none)

/-- Feed a list of samples one by one, collecting all emitted buffers in
order. -/
def runPush (tr : PktTrigger K) : List (Cpx K) → PktTrigger K × List (List (Cpx K))
  | [] => (tr, [])
  | s :: rest =>
    ((runPush (tr.push_samp s).1 rest).1,
      (tr.push_samp s).2.toList ++ (runPush (tr.push_samp s).1 rest).2)

/-- `PktTrigger::new` (pkt_trigger.rs lines 27-33). -/
def mkTrigger (cfg : TrigCfg K) : PktTrigger K := ⟨cfg, [], .skip 0⟩

/-- Length of the suffix of `b` strictly after its last sample whose
magnitude reaches the trigger threshold. -/
def quietSuffixLen (t : K) (b : List (Cpx K)) : ℕ :=
  (b.reverse.takeWhile fun s => !magGEb t s).length

lemma magGEb_eq_false_iff {t : K} {s : Cpx K} :
    magGEb t s = false ↔ 0 < t ∧ Cpx.normSq s < t * t := by
  simp [magGEb, not_or, not_le]

lemma magGEb_eq_true_iff {t : K} {s : Cpx K} :
    magGEb t s = true ↔ t ≤ 0 ∨ t * t ≤ Cpx.normSq s := by
  simp [magGEb]

/-- If a sample passes the `norm_sqr` entry check but not the magnitude
check, the threshold must exceed one. -/
lemma one_lt_of_entry {t : K} {s : Cpx K} (h1 : t < Cpx.normSq s)
    (h2 : magGEb t s = false) : 1 < t := by
  obtain ⟨ht, hs⟩ := magGEb_eq_false_iff.mp h2
  nlinarith

lemma not_magGE_of_le {t : K} {s : Cpx K} (h : Cpx.normSq s ≤ t) (h1 : 1 < t) :
    magGEb t s = false := by
  refine magGEb_eq_false_iff.mpr ⟨by linarith, by nlinarith⟩

lemma takeWhile_append_all {α : Type} {p : α → Bool} :
    ∀ {X : List α} (Y : List α), (∀ x ∈ X, p x = true) →
      (X ++ Y).takeWhile p = X ++ Y.takeWhile p := by
  intro X
  induction X with
  | nil => intro Y _; simp
  | cons a X ih =>
    intro Y hX
    have ha : p a = true := hX a (List.mem_cons_self a X)
    simp only [List.cons_append, List.takeWhile_cons, ha, if_true]
    rw [ih Y fun x hx => hX x (List.mem_cons_of_mem a hx)]

/-- Computing the quiet suffix of a buffer of the shape
`pre ++ r :: B` where `r` is high-energy and all of `B` is quiet. -/
lemma quietSuffixLen_append (t : K) (pre : List (Cpx K)) (r : Cpx K)
    (B : List (Cpx K)) (hB : ∀ q ∈ B, magGEb t q = false)
    (hr : magGEb t r = true) :
    quietSuffixLen t (pre ++ r :: B) = B.length := by
  unfold quietSuffixLen
  have h1 : pre ++ r :: B = (pre ++ [r]) ++ B := by simp
  rw [h1, List.reverse_append]
  rw [takeWhile_append_all _ (fun x hx => by
    rw [List.mem_reverse] at hx
    simp [hB x hx])]
  have h2 : (pre ++ [r]).reverse = r :: pre.reverse := by simp
  rw [h2, List.takeWhile_cons]
  simp [hr]

/-- Invariant of the trigger history for the `Idle` state: the history is
bounded by `pkt_spacing`, and every retained sample either failed the
`norm_sqr` entry test or fails the magnitude continuation test. -/
def IdleOk (cfg : TrigCfg K) (hist : List (Cpx K)) : Prop :=
  hist.length ≤ cfg.pkt_spacing ∧
    ∀ s ∈ hist, Cpx.normSq s ≤ cfg.power_trig ∨ magGEb cfg.power_trig s = false

/-- Invariant of the trigger history for the `Packet n` state: exactly the
last `n` samples are quiet, the sample before them is the last reset point,
and either that sample is high-energy or nothing in the history is. -/
def PacketOk (cfg : TrigCfg K) (hist : List (Cpx K)) (n : ℕ) : Prop :=
  n ≤ cfg.pkt_spacing ∧
    ∃ pre r quiet, hist = pre ++ r :: quiet ∧ quiet.length = n ∧
      (∀ q ∈ quiet, magGEb cfg.power_trig q = false) ∧
      (magGEb cfg.power_trig r = true ∨
        (magGEb cfg.power_trig r = false ∧
          ∀ s ∈ pre, magGEb cfg.power_trig s = false))

def InvState (cfg : TrigCfg K) (hist : List (Cpx K)) : TrigState → Prop
  | .skip _ => hist = []
  | .idle => IdleOk cfg hist
  | .packet n => PacketOk cfg hist n

/-- Reachability invariant of the trigger. -/
def TrigInv (tr : PktTrigger K) : Prop := InvState tr.cfg tr.hist tr.state

lemma trigInv_mkTrigger (cfg : TrigCfg K) : TrigInv (mkTrigger cfg) := rfl

lemma push_samp_cfg (tr : PktTrigger K) (s : Cpx K) :
    (tr.push_samp s).1.cfg = tr.cfg := by
  rcases tr with ⟨cfg, hist, st⟩
  cases st <;> simp only [PktTrigger.push_samp] <;> split_ifs <;> rfl

/-- One step of the trigger preserves the invariant, and any buffer it emits
has its quiet guard suffix of length exactly `pkt_spacing + 1` (when the
buffer contains a high-energy sample at all), with the post-emit history
pruned within the bound and the state back to `Idle`. -/
lemma push_samp_inv (tr : PktTrigger K) (s : Cpx K) (h : TrigInv tr) :
    TrigInv (tr.push_samp s).1 ∧
      ∀ b, (tr.push_samp s).2 = some b →
        ((∃ x ∈ b, magGEb tr.cfg.power_trig x = true) →
            quietSuffixLen tr.cfg.power_trig b = tr.cfg.pkt_spacing + 1) ∧
          (tr.push_samp s).1.hist.length ≤ tr.cfg.pkt_spacing ∧
          (tr.push_samp s).1.state = .idle := by
  rcases tr with ⟨cfg, hist, st⟩
  cases st with
  | skip n =>
    have hh : hist = [] := h
    by_cases hn : cfg.stabilize_samps ≤ n
    · have hpush : PktTrigger.push_samp ⟨cfg, hist, .skip n⟩ s =
          (⟨cfg, hist, .idle⟩, none) := by
        simp [PktTrigger.push_samp, hn]
      rw [hpush]
      refine ⟨?_, fun b hb => by simp at hb⟩
      show IdleOk cfg hist
      rw [hh]
      exact ⟨by simp, by simp⟩
    · have hpush : PktTrigger.push_samp ⟨cfg, hist, .skip n⟩ s =
          (⟨cfg, hist, .skip (n + 1)⟩, none) := by
        simp [PktTrigger.push_samp, hn]
      rw [hpush]
      exact ⟨hh, fun b hb => by simp at hb⟩
  | idle =>
    have hio : IdleOk cfg hist := h
    by_cases he : cfg.power_trig < Cpx.normSq s
    · have hpush : PktTrigger.push_samp ⟨cfg, hist, .idle⟩ s =
          (⟨cfg, hist ++ [s], .packet 0⟩, none) := by
        simp [PktTrigger.push_samp, he]
      rw [hpush]
      refine ⟨?_, fun b hb => by simp at hb⟩
      show PacketOk cfg (hist ++ [s]) 0
      refine ⟨Nat.zero_le _, hist, s, [], by simp, rfl, by simp, ?_⟩
      by_cases hm : magGEb cfg.power_trig s = true
      · exact Or.inl hm
      · have hm' : magGEb cfg.power_trig s = false := by
          revert hm; cases magGEb cfg.power_trig s <;> simp
        have h1t : 1 < cfg.power_trig := one_lt_of_entry he hm'
        refine Or.inr ⟨hm', fun x hx => ?_⟩
        rcases hio.2 x hx with hle | hf
        · exact not_magGE_of_le hle h1t
        · exact hf
    · by_cases hov : cfg.pkt_spacing < (hist ++ [s]).length
      · have hpush : PktTrigger.push_samp ⟨cfg, hist, .idle⟩ s =
            (⟨cfg, (hist ++ [s]).tail, .idle⟩, none) := by
          simp only [PktTrigger.push_samp]
          rw [if_neg he, if_pos hov]
        rw [hpush]
        refine ⟨?_, fun b hb => by simp at hb⟩
        show IdleOk cfg (hist ++ [s]).tail
        constructor
        · have : (hist ++ [s]).tail.length = hist.length := by simp
          rw [this]; exact hio.1
        · intro x hx
          have hx' : x ∈ hist ++ [s] := (List.tail_sublist _).subset hx
          rcases List.mem_append.mp hx' with hxh | hxs
          · exact hio.2 x hxh
          · have : x = s := by simpa using hxs
            subst this
            exact Or.inl (le_of_not_lt he)
      · have hpush : PktTrigger.push_samp ⟨cfg, hist, .idle⟩ s =
            (⟨cfg, hist ++ [s], .idle⟩, none) := by
          simp only [PktTrigger.push_samp]
          rw [if_neg he, if_neg hov]
        rw [hpush]
        refine ⟨?_, fun b hb => by simp at hb⟩
        show IdleOk cfg (hist ++ [s])
        constructor
        · exact Nat.le_of_not_lt hov
        · intro x hx
          rcases List.mem_append.mp hx with hxh | hxs
          · exact hio.2 x hxh
          · have : x = s := by simpa using hxs
            subst this
            exact Or.inl (le_of_not_lt he)
  | packet n =>
    have hpo : PacketOk cfg hist n := h
    obtain ⟨hn, pre, r, quiet, hhist, hqlen, hq, hdisj⟩ := hpo
    by_cases hm : magGEb cfg.power_trig s = true
    · have hpush : PktTrigger.push_samp ⟨cfg, hist, .packet n⟩ s =
          (⟨cfg, hist ++ [s], .packet 0⟩, none) := by
        simp [PktTrigger.push_samp, hm]
      rw [hpush]
      refine ⟨?_, fun b hb => by simp at hb⟩
      show PacketOk cfg (hist ++ [s]) 0
      exact ⟨Nat.zero_le _, pre ++ r :: quiet, s, [], by simp [hhist], rfl,
        by simp, Or.inl hm⟩
    · have hm' : magGEb cfg.power_trig s = false := by
        revert hm; cases magGEb cfg.power_trig s <;> simp
      by_cases hps : cfg.pkt_spacing ≤ n
      · -- emit
        have hn' : n = cfg.pkt_spacing := le_antisymm hn hps
        have hpush : PktTrigger.push_samp ⟨cfg, hist, .packet n⟩ s =
            (⟨cfg,
                (hist ++ [s]).drop ((hist ++ [s]).length - cfg.pkt_spacing),
                .idle⟩,
              some (hist ++ [s])) := by
          simp only [PktTrigger.push_samp]
          rw [hm']
          simp only [Bool.false_eq_true, if_false]
          rw [if_pos hps]
        rw [hpush]
        have hkey : hist ++ [s] = (pre ++ [r]) ++ (quiet ++ [s]) := by
          rw [hhist]; simp
        have hBq : ∀ q ∈ quiet ++ [s], magGEb cfg.power_trig q = false := by
          intro q hq'
          rcases List.mem_append.mp hq' with h1 | h2
          · exact hq q h1
          · have : q = s := by simpa using h2
            subst this; exact hm'
        have hlenB : (quiet ++ [s]).length = cfg.pkt_spacing + 1 := by
          simp [hqlen, hn']
        have hdropeq : (hist ++ [s]).drop ((hist ++ [s]).length - cfg.pkt_spacing)
            = (quiet ++ [s]).drop 1 := by
          rw [hkey]
          have harith : ((pre ++ [r]) ++ (quiet ++ [s])).length - cfg.pkt_spacing
              = (pre ++ [r]).length + 1 := by
            simp only [List.length_append, List.length_cons, List.length_nil,
              hlenB]
            omega
          rw [harith, List.drop_append]
        have hlend : ((hist ++ [s]).drop
            ((hist ++ [s]).length - cfg.pkt_spacing)).length ≤ cfg.pkt_spacing := by
          rw [hdropeq, List.length_drop, hlenB]
          omega
        constructor
        · show IdleOk cfg ((hist ++ [s]).drop ((hist ++ [s]).length - cfg.pkt_spacing))
          refine ⟨hlend, fun x hx => ?_⟩
          rw [hdropeq] at hx
          exact Or.inr (hBq x ((List.drop_sublist _ _).subset hx))
        · intro b hb
          have hbeq : b = hist ++ [s] := by
            simpa using hb.symm
          subst hbeq
          refine ⟨?_, hlend, rfl⟩
          intro hex
          have hshape : hist ++ [s] = pre ++ r :: (quiet ++ [s]) := by
            rw [hhist]; simp
          rcases hdisj with hr | ⟨hrf, hpre⟩
          · rw [hshape, quietSuffixLen_append _ _ _ _ hBq hr, hlenB]
          · exfalso
            obtain ⟨x, hxb, hxt⟩ := hex
            rw [hshape] at hxb
            rcases List.mem_append.mp hxb with h1 | h2
            · rw [hpre x h1] at hxt; exact Bool.false_ne_true hxt
            · rcases List.mem_cons.mp h2 with h3 | h4
              · subst h3; rw [hrf] at hxt; exact Bool.false_ne_true hxt
              · rw [hBq x h4] at hxt; exact Bool.false_ne_true hxt
      · have hpush : PktTrigger.push_samp ⟨cfg, hist, .packet n⟩ s =
            (⟨cfg, hist ++ [s], .packet (n + 1)⟩, none) := by
          simp only [PktTrigger.push_samp]
          rw [hm']
          simp only [Bool.false_eq_true, if_false]
          rw [if_neg hps]
        rw [hpush]
        refine ⟨?_, fun b hb => by simp at hb⟩
        show PacketOk cfg (hist ++ [s]) (n + 1)
        refine ⟨Nat.succ_le_of_lt (Nat.lt_of_not_le hps), pre, r, quiet ++ [s],
          by rw [hhist]; simp, by simp [hqlen], ?_, hdisj⟩
        intro q hq'
        rcases List.mem_append.mp hq' with h1 | h2
        · exact hq q h1
        · have : q = s := by simpa using h2
          subst this; exact hm'

/-- Running the trigger preserves the invariant, keeps the config, and every
emitted buffer has the exact quiet guard suffix. -/
lemma runPush_inv : ∀ (l : List (Cpx K)) (tr : PktTrigger K), TrigInv tr →
    TrigInv (runPush tr l).1 ∧ (runPush tr l).1.cfg = tr.cfg ∧
      ∀ b ∈ (runPush tr l).2,
        (∃ x ∈ b, magGEb tr.cfg.power_trig x = true) →
          quietSuffixLen tr.cfg.power_trig b = tr.cfg.pkt_spacing + 1 := by
  intro l
  induction l with
  | nil => intro tr h; exact ⟨h, rfl, by simp [runPush]⟩
  | cons s rest ih =>
    intro tr h
    obtain ⟨h1, h2⟩ := push_samp_inv tr s h
    obtain ⟨ih1, ih2, ih3⟩ := ih (tr.push_samp s).1 h1
    have hcfg := push_samp_cfg tr s
    refine ⟨ih1, by rw [show (runPush tr (s :: rest)).1
        = (runPush (tr.push_samp s).1 rest).1 from rfl, ih2, hcfg], ?_⟩
    intro b hb
    have hb' : b ∈ (tr.push_samp s).2.toList ++ (runPush (tr.push_samp s).1 rest).2 := hb
    rcases List.mem_append.mp hb' with hb1 | hb2
    · rcases ho : (tr.push_samp s).2 with _ | b'
      · rw [ho] at hb1; simp at hb1
      · rw [ho] at hb1
        have : b = b' := by simpa using hb1
        subst this
        exact (h2 b ho).1
    · have := ih3 b hb2
      rw [hcfg] at this
      exact this

lemma runPush_append (tr : PktTrigger K) (l₁ l₂ : List (Cpx K)) :
    runPush tr (l₁ ++ l₂) =
      ((runPush (runPush tr l₁).1 l₂).1,
        (runPush tr l₁).2 ++ (runPush (runPush tr l₁).1 l₂).2) := by
  induction l₁ generalizing tr with
  | nil => simp [runPush]
  | cons s rest ih => simp [runPush, ih, List.append_assoc]

lemma runPush_skip (cfg : TrigCfg K) :
    ∀ (l : List (Cpx K)) (k : ℕ), k + l.length ≤ cfg.stabilize_samps →
      runPush (⟨cfg, [], .skip k⟩ : PktTrigger K) l =
        (⟨cfg, [], .skip (k + l.length)⟩, []) := by
  intro l
  induction l with
  | nil => intro k _; simp [runPush]
  | cons s rest ih =>
    intro k hk
    have hlen : (s :: rest).length = rest.length + 1 := rfl
    have hlt : ¬ cfg.stabilize_samps ≤ k := by
      rw [hlen] at hk; omega
    have hpush : PktTrigger.push_samp (⟨cfg, [], .skip k⟩ : PktTrigger K) s =
        (⟨cfg, [], .skip (k + 1)⟩, none) := by
      simp [PktTrigger.push_samp, hlt]
    have hrec := ih (k + 1) (by rw [hlen] at hk; omega)
    have harith : k + 1 + rest.length = k + (s :: rest).length := by
      rw [hlen]; omega
    simp only [runPush, hpush, Option.toList, List.nil_append]
    rw [hrec, harith]

/-- CLAIM C9 (amended): the trigger discards the first
`stabilize_samps + 1` samples: while at most `stabilize_samps` samples have
arrived the state is still `Skip` with an empty history, and after exactly
`stabilize_samps + 1` samples the state has just become `Idle`, the history
still being empty (so the sample on which the state switches is also
discarded, not processed). -/
theorem trigger_startup_discards {K : Type} [LinearOrderedCommRing K]
    (cfg : TrigCfg K) (samps : List (Cpx K)) :
    (samps.length ≤ cfg.stabilize_samps →
      runPush (mkTrigger cfg) samps = (⟨cfg, [], .skip samps.length⟩, [])) ∧
    (samps.length = cfg.stabilize_samps + 1 →
      runPush (mkTrigger cfg) samps = (⟨cfg, [], .idle⟩, [])) := by
  constructor
  · intro h
    have := runPush_skip cfg samps 0 (by omega)
    simpa using this
  · intro h
    have hsplit : samps.take cfg.stabilize_samps ++ samps.drop cfg.stabilize_samps
        = samps := List.take_append_drop _ _
    have hlen1 : (samps.take cfg.stabilize_samps).length = cfg.stabilize_samps := by
      rw [List.length_take]; omega
    have hlen2 : (samps.drop cfg.stabilize_samps).length = 1 := by
      rw [List.length_drop]; omega
    obtain ⟨x, hx⟩ := List.length_eq_one.mp hlen2
    have h1 : runPush (mkTrigger cfg) (samps.take cfg.stabilize_samps) =
        (⟨cfg, [], .skip cfg.stabilize_samps⟩, []) := by
      have := runPush_skip cfg (samps.take cfg.stabilize_samps) 0 (by omega)
      simpa [hlen1] using this
    have h2 : runPush (⟨cfg, [], .skip cfg.stabilize_samps⟩ : PktTrigger K) [x] =
        (⟨cfg, [], .idle⟩, []) := by
      have hpush : PktTrigger.push_samp
          (⟨cfg, [], .skip cfg.stabilize_samps⟩ : PktTrigger K) x =
          (⟨cfg, [], .idle⟩, none) := by
        simp [PktTrigger.push_samp]
      simp [runPush, hpush]
    rw [← hsplit, runPush_append, h1, hx, h2]
    simp

/-- Witness for the amended C9: `stabilize_samps = 1`, two samples pushed,
state just turned `Idle`, nothing recorded. -/
theorem trigger_startup_discards_witness :
    (([⟨5, 0⟩, ⟨5, 0⟩] : List (Cpx ℤ)).length = 1 + 1) ∧
      runPush (mkTrigger (⟨1, 1, 2⟩ : TrigCfg ℤ)) [⟨5, 0⟩, ⟨5, 0⟩] =
        (⟨⟨1, 1, 2⟩, [], .idle⟩, []) :=
  ⟨by decide, (trigger_startup_discards _ _).2 (by decide)⟩

/-- CLAIM C9 (counterexample): with `stabilize_samps = 0` the claim says no
sample is discarded and the sample on which the state becomes `Idle` is
processed normally; but the code discards that first sample even though it
is high-energy (`|s|² = 4 > 1`): the history stays empty and the state is
merely `Idle`, not `Packet`. -/
theorem trigger_startup_discards_cex :
    (PktTrigger.push_samp (mkTrigger (⟨0, 1, 2⟩ : TrigCfg ℤ)) ⟨2, 0⟩).1.hist = [] ∧
      (PktTrigger.push_samp (mkTrigger (⟨0, 1, 2⟩ : TrigCfg ℤ)) ⟨2, 0⟩).1.state =
        TrigState.idle ∧
      (1 : ℤ) < Cpx.normSq (⟨2, 0⟩ : Cpx ℤ) := by
  decide

/-- CLAIM C3 (amended): every buffer emitted by `push_samp` (from the start
state, over any sample stream) that contains a sample reaching the
continuation threshold ends exactly `pkt_spacing + 1` samples after the last
such sample — not `pkt_spacing` as the spec states. -/
theorem trigger_emit_guard_suffix {K : Type} [LinearOrderedCommRing K]
    (cfg : TrigCfg K) (samps : List (Cpx K)) (b : List (Cpx K))
    (hb : b ∈ (runPush (mkTrigger cfg) samps).2)
    (hex : ∃ x ∈ b, magGEb cfg.power_trig x = true) :
    quietSuffixLen cfg.power_trig b = cfg.pkt_spacing + 1 := by
  obtain ⟨-, -, h3⟩ := runPush_inv samps (mkTrigger cfg) (trigInv_mkTrigger cfg)
  exact h3 b hb hex

/-- Witness for the amended C3: `pkt_spacing = 1`; the emitted buffer
`[2, 0, 0]` has a quiet suffix of length `2 = pkt_spacing + 1`. -/
theorem trigger_emit_guard_suffix_witness :
    ([⟨2, 0⟩, ⟨0, 0⟩, ⟨0, 0⟩] ∈
        (runPush (mkTrigger (⟨0, 1, 1⟩ : TrigCfg ℤ))
          [⟨9, 9⟩, ⟨2, 0⟩, ⟨0, 0⟩, ⟨0, 0⟩]).2) ∧
      quietSuffixLen (1 : ℤ) [⟨2, 0⟩, ⟨0, 0⟩, ⟨0, 0⟩] = 1 + 1 :=
  ⟨by decide,
    trigger_emit_guard_suffix (⟨0, 1, 1⟩ : TrigCfg ℤ)
      [⟨9, 9⟩, ⟨2, 0⟩, ⟨0, 0⟩, ⟨0, 0⟩] [⟨2, 0⟩, ⟨0, 0⟩, ⟨0, 0⟩]
      (by decide) (by decide)⟩

/-- CLAIM C3 (counterexample): with `pkt_spacing = 2` the emitted buffer is
`[2, 0, 0, 0]`, whose suffix after the final sample exceeding the trigger
threshold has length `3`, not `pkt_spacing = 2` as the claim states (the
emit fires while pushing the `pkt_spacing + 1`-th quiet sample, which is
included in the buffer). -/
theorem trigger_emit_guard_suffix_cex :
    (runPush (mkTrigger (⟨0, 1, 2⟩ : TrigCfg ℤ))
        [⟨9, 9⟩, ⟨2, 0⟩, ⟨0, 0⟩, ⟨0, 0⟩, ⟨0, 0⟩]).2 =
      [[⟨2, 0⟩, ⟨0, 0⟩, ⟨0, 0⟩, ⟨0, 0⟩]] ∧
      quietSuffixLen (1 : ℤ) [⟨2, 0⟩, ⟨0, 0⟩, ⟨0, 0⟩, ⟨0, 0⟩] = 3 ∧
      (3 : ℕ) ≠ 2 := by
  decide

lemma push_samp_packet_reset {K : Type} [LinearOrderedCommRing K]
    (cfg : TrigCfg K) (hist : List (Cpx K)) (n : ℕ) (s : Cpx K)
    (hm : magGEb cfg.power_trig s = true) :
    PktTrigger.push_samp (⟨cfg, hist, .packet n⟩ : PktTrigger K) s =
      (⟨cfg, hist ++ [s], .packet 0⟩, none) := by
  simp [PktTrigger.push_samp, hm]

/-- CLAIM C2: in the `Packet` state the code resets the quiet counter using
the magnitude comparison `samp.norm() >= power_trig` (pkt_trigger.rs line
60), not the squared magnitude: at the failing input
`power_trig = 1/100`, `s = 1/20` we have `|s|² = 1/400 < power_trig`, so per
the claim the counter must increment, yet the code resets it to `0` because
`|s| = 1/20 ≥ power_trig`.  This evaluates the code at that input. -/
theorem push_samp_resets_on_magnitude :
    PktTrigger.push_samp
        (⟨⟨0, (1 : ℚ)/100, 5⟩, [⟨1, 0⟩], .packet 3⟩ : PktTrigger ℚ) ⟨1/20, 0⟩ =
      (⟨⟨0, 1/100, 5⟩, [⟨1, 0⟩, ⟨1/20, 0⟩], .packet 0⟩, none) ∧
      Cpx.normSq (⟨1/20, 0⟩ : Cpx ℚ) < 1/100 := by
  constructor
  · have hm : magGEb ((⟨0, (1 : ℚ)/100, 5⟩ : TrigCfg ℚ).power_trig) ⟨1/20, 0⟩ = true := by
      rw [magGEb_eq_true_iff]
      right
      show (1 : ℚ)/100 * (1/100) ≤ Cpx.normSq ⟨1/20, 0⟩
      norm_num [Cpx.normSq]
    exact push_samp_packet_reset _ _ _ _ hm
  · norm_num [Cpx.normSq]

/-- CLAIM C10: after every call to `push_samp` (from the start state, over
any stream) that leaves the trigger `Idle`, the history holds at most
`pkt_spacing` samples; and immediately after every emit the history is
pruned back to at most `pkt_spacing` samples. -/
theorem trigger_history_bounded {K : Type} [LinearOrderedCommRing K]
    (cfg : TrigCfg K) (samps : List (Cpx K)) (s : Cpx K) :
    (((runPush (mkTrigger cfg) samps).1.push_samp s).1.state = TrigState.idle →
      ((runPush (mkTrigger cfg) samps).1.push_samp s).1.hist.length ≤
        cfg.pkt_spacing) ∧
    (((runPush (mkTrigger cfg) samps).1.push_samp s).2.isSome = true →
      ((runPush (mkTrigger cfg) samps).1.push_samp s).1.hist.length ≤
        cfg.pkt_spacing) := by
  obtain ⟨hinv, hcfg, -⟩ := runPush_inv samps (mkTrigger cfg) (trigInv_mkTrigger cfg)
  obtain ⟨hinv', hemit⟩ := push_samp_inv (runPush (mkTrigger cfg) samps).1 s hinv
  constructor
  · intro hid
    have hok : InvState ((runPush (mkTrigger cfg) samps).1.push_samp s).1.cfg
        ((runPush (mkTrigger cfg) samps).1.push_samp s).1.hist
        ((runPush (mkTrigger cfg) samps).1.push_samp s).1.state := hinv'
    rw [hid] at hok
    have hc : ((runPush (mkTrigger cfg) samps).1.push_samp s).1.cfg = cfg := by
      rw [push_samp_cfg, hcfg]
      rfl
    rw [hc] at hok
    exact hok.1
  · intro hs
    rcases ho : ((runPush (mkTrigger cfg) samps).1.push_samp s).2 with _ | b
    · rw [ho] at hs; simp at hs
    · have := (hemit b ho).2.1
      rw [hcfg] at this
      exact this

/-- Witness for C10: concrete step leaving `Idle` within the bound. -/
theorem trigger_history_bounded_witness :
    ((runPush (mkTrigger (⟨0, 1, 2⟩ : TrigCfg ℤ)) []).1.push_samp ⟨0, 0⟩).1.state =
        TrigState.idle ∧
      ((runPush (mkTrigger (⟨0, 1, 2⟩ : TrigCfg ℤ)) []).1.push_samp
          ⟨0, 0⟩).1.hist.length ≤ 2 :=
  ⟨by decide, (trigger_history_bounded _ [] _).1 (by decide)⟩

end Trigger

/-! ## CFO estimation and correction (`cfo.rs`) -/

/-- The coarse stage of `estimate_cfo` (cfo.rs lines 14-18):
`arg( Σ_{i<9S} conj(short[i]) · short[i+S] ) / S`. -/
noncomputable def cfoCoarse (short : List ℂ) (S : ℕ) : ℝ :=
  (∑ i in Finset.range (9 * S),
    (starRingEnd ℂ) (short.getD i 0) * short.getD (i + S) 0).arg / S

/-- The fine stage of `estimate_cfo` as written in the code (cfo.rs lines
25-30): the constant factor is `Complex::new(1., -coarse*L).exp()`, i.e.
`exp(1 − j·coarse·L)`, whose magnitude is `e` rather than `1`. -/
noncomputable def cfoFine (long : List ℂ) (L : ℕ) (coarse : ℝ) : ℝ :=
  (∑ i in Finset.Ico (L / 2) (3 * L / 2),
    (starRingEnd ℂ) (long.getD i 0) * long.getD (i + L) 0 *
      Complex.exp (1 - (coarse * L : ℝ) * Complex.I)).arg / L

/-- The fine stage as the spec writes it, with the unit-magnitude rotation
`exp(−j·coarse·L)`. -/
noncomputable def cfoFineSpec (long : List ℂ) (L : ℕ) (coarse : ℝ) : ℝ :=
  (∑ i in Finset.Ico (L / 2) (3 * L / 2),
    (starRingEnd ℂ) (long.getD i 0) * long.getD (i + L) 0 *
      Complex.exp (-(coarse * L : ℝ) * Complex.I)).arg / L

/-- Model of `estimate_cfo` (cfo.rs lines 6-33); the three `assert!`s on the
slice lengths and the parity of `L` are the `none` branch. -/
noncomputable def estimate_cfo (short long : List ℂ) (S L : ℕ) : Option ℝ :=
  if short.length = 10 * S ∧ L % 2 = 0 ∧ long.length = 5 * L / 2 then
    some (cfoCoarse short S + cfoFine long L (cfoCoarse short S))
  else none

/-- Scaling every summand by the positive real `e` leaves the argument of the
sum unchanged, so the code's fine stage equals the spec's. -/
lemma cfoFine_eq_spec (long : List ℂ) (L : ℕ) (coarse : ℝ) :
    cfoFine long L coarse = cfoFineSpec long L coarse := by
  unfold cfoFine cfoFineSpec
  congr 1
  have hexp : Complex.exp (1 - (coarse * L : ℝ) * Complex.I)
      = ((Real.exp 1 : ℝ) : ℂ) * Complex.exp (-(coarse * L : ℝ) * Complex.I) := by
    rw [sub_eq_add_neg, Complex.exp_add]
    congr 1
    · rw [← Complex.ofReal_one, Complex.ofReal_exp]
    · rw [neg_mul]
  have hsum : (∑ i in Finset.Ico (L / 2) (3 * L / 2),
      (starRingEnd ℂ) (long.getD i 0) * long.getD (i + L) 0 *
        Complex.exp (1 - (coarse * L : ℝ) * Complex.I))
      = ((Real.exp 1 : ℝ) : ℂ) * ∑ i in Finset.Ico (L / 2) (3 * L / 2),
        (starRingEnd ℂ) (long.getD i 0) * long.getD (i + L) 0 *
          Complex.exp (-(coarse * L : ℝ) * Complex.I) := by
    rw [Finset.mul_sum]
    refine Finset.sum_congr rfl fun i _ => ?_
    rw [hexp]; ring
  rw [hsum, Complex.arg_real_mul _ (Real.exp_pos 1)]

/-- CLAIM C4: on correctly sized inputs `estimate_cfo` returns
`coarse + fine` where `fine` uses the spec's rotation `exp(−j·coarse·L)`;
the code's factor `exp(1 − j·coarse·L)` (magnitude `e`) does not change the
argument, hence not the estimate. -/
theorem estimate_cfo_matches_spec (short long : List ℂ) (S L : ℕ)
    (h1 : short.length = 10 * S) (h2 : L % 2 = 0)
    (h3 : long.length = 5 * L / 2) :
    estimate_cfo short long S L =
      some (cfoCoarse short S + cfoFineSpec long L (cfoCoarse short S)) := by
  unfold estimate_cfo
  rw [if_pos ⟨h1, h2, h3⟩, cfoFine_eq_spec]

/-- Witness for C4 at `S = 1`, `L = 2`, constant inputs. -/
theorem estimate_cfo_matches_spec_witness :
    (List.replicate 10 (1 : ℂ)).length = 10 * 1 ∧
      estimate_cfo (List.replicate 10 (1 : ℂ)) (List.replicate 5 (1 : ℂ)) 1 2 =
        some (cfoCoarse (List.replicate 10 (1 : ℂ)) 1 +
          cfoFineSpec (List.replicate 5 (1 : ℂ)) 2
            (cfoCoarse (List.replicate 10 (1 : ℂ)) 1)) :=
  ⟨by simp,
    estimate_cfo_matches_spec _ _ 1 2 (by simp) (by decide) (by simp)⟩

/-- The cumulative-phasor loop of `correct_cfo` (cfo.rs lines 38-44):
`corr` starts at `1` and is multiplied by `c` after each output sample. -/
noncomputable def correct_cfoAux (c : ℂ) : ℂ → List ℂ → List ℂ
  | _, [] => []
  | corr, s :: rest => s * corr :: correct_cfoAux c (corr * c) rest

/-- Model of `correct_cfo` (cfo.rs lines 36-45):
`c = Complex::new(0., -cfo).exp()`. -/
noncomputable def correct_cfo (samps : List ℂ) (cfo : ℝ) : List ℂ :=
  correct_cfoAux (Complex.exp (-(cfo : ℂ) * Complex.I)) 1 samps

lemma correct_cfoAux_length (c : ℂ) :
    ∀ (l : List ℂ) (corr : ℂ), (correct_cfoAux c corr l).length = l.length
  | [], _ => rfl
  | s :: rest, corr => by
    simp [correct_cfoAux, correct_cfoAux_length c rest]

lemma correct_cfo_length (samps : List ℂ) (cfo : ℝ) :
    (correct_cfo samps cfo).length = samps.length :=
  correct_cfoAux_length _ _ _

lemma correct_cfoAux_getD (c : ℂ) :
    ∀ (l : List ℂ) (corr : ℂ) (i : ℕ), i < l.length →
      (correct_cfoAux c corr l).getD i 0 = l.getD i 0 * (corr * c ^ i) := by
  intro l
  induction l with
  | nil => intro corr i hi; simp at hi
  | cons s rest ih =>
    intro corr i hi
    cases i with
    | zero => simp [correct_cfoAux]
    | succ i =>
      have hi' : i < rest.length := by simpa using hi
      show (correct_cfoAux c (corr * c) rest).getD i 0 = _
      rw [ih (corr * c) i hi']
      show rest.getD i 0 * (corr * c * c ^ i) = rest.getD i 0 * (corr * c ^ (i + 1))
      rw [pow_succ]; ring

/-- CLAIM C8: applying the corrector twice with opposite signs restores every
sample exactly, hence within the claimed `1e−6` magnitude tolerance. -/
theorem correct_cfo_roundtrip (samps : List ℂ) (cfo : ℝ) (i : ℕ)
    (h : i < samps.length) :
    Complex.abs ((correct_cfo (correct_cfo samps cfo) (-cfo)).getD i 0 -
      samps.getD i 0) < 1 / 1000000 := by
  have hlen : (correct_cfo samps cfo).length = samps.length :=
    correct_cfo_length samps cfo
  have h1 : (correct_cfo samps cfo).getD i 0 =
      samps.getD i 0 * (1 * Complex.exp (-(cfo : ℂ) * Complex.I) ^ i) :=
    correct_cfoAux_getD _ _ _ _ h
  have h2 : (correct_cfo (correct_cfo samps cfo) (-cfo)).getD i 0 =
      (correct_cfo samps cfo).getD i 0 *
        (1 * Complex.exp (-((-cfo : ℝ) : ℂ) * Complex.I) ^ i) :=
    correct_cfoAux_getD _ _ _ _ (by rw [hlen]; exact h)
  have hc : Complex.exp (-(cfo : ℂ) * Complex.I) ^ i *
      Complex.exp (-((-cfo : ℝ) : ℂ) * Complex.I) ^ i = 1 := by
    rw [← mul_pow, ← Complex.exp_add]
    have hz : (-(cfo : ℂ) * Complex.I) + (-((-cfo : ℝ) : ℂ) * Complex.I) = 0 := by
      push_cast; ring
    rw [hz, Complex.exp_zero, one_pow]
  have hzero : (correct_cfo (correct_cfo samps cfo) (-cfo)).getD i 0 -
      samps.getD i 0 = 0 := by
    rw [h2, h1, one_mul, one_mul, mul_assoc, hc, mul_one, sub_self]
  rw [hzero, map_zero]
  norm_num

/-- Witness for C8 at a singleton input. -/
theorem correct_cfo_roundtrip_witness :
    0 < ([(1 : ℂ)]).length ∧
      Complex.abs ((correct_cfo (correct_cfo [(1 : ℂ)] 0) (-0)).getD 0 0 -
        ([(1 : ℂ)]).getD 0 0) < 1 / 1000000 :=
  ⟨by decide, correct_cfo_roundtrip [(1 : ℂ)] 0 0 (by decide)⟩

/-! ## Subcarrier equalisation (`equalization.rs`) -/

/-- The unnormalised inverse-direction DFT used by the pipeline
(`FFTplanner::new(true)`): `X[k] = Σ_n x[n] · exp(+2πi·n·k/N)`. -/
noncomputable def invDFT (x : List ℂ) : List ℂ :=
  (List.range x.length).map fun (k : ℕ) =>
    ∑ n in Finset.range x.length,
      x.getD n 0 *
        Complex.exp ((2 * Real.pi * (n : ℝ) * (k : ℝ) / (x.length : ℝ) : ℝ) *
          Complex.I)

/-- The averaged time-domain LTS (equalization.rs lines 15-17):
`avg[i] = (long[L/2 + i] + long[3L/2 + i]) / 2`. -/
noncomputable def ltsAvg (long : List ℂ) (L : ℕ) : List ℂ :=
  (List.range L).map fun i =>
    (long.getD (L / 2 + i) 0 + long.getD (3 * L / 2 + i) 0) / 2

lemma invDFT_length (x : List ℂ) : (invDFT x).length = x.length := by
  rw [invDFT, List.length_map, List.length_range]

lemma ltsAvg_length (long : List ℂ) (L : ℕ) : (ltsAvg long L).length = L := by
  rw [ltsAvg, List.length_map, List.length_range]

/-- Model of `estimate_subcarrier_equalization` (equalization.rs lines 7-34);
the length `assert!` is the `none` branch, and the zip with the
frequency-domain reference produces `R[k] / FFT(avg)[k]` on present
subcarriers. -/
noncomputable def estimate_subcarrier_equalization (long ltsTime : List ℂ)
    (ltsFreq : List (Option ℂ)) : Option (List (Option ℂ)) :=
  if long.length = 5 * ltsTime.length / 2 then
    some (((invDFT (ltsAvg long ltsTime.length)).zip ltsFreq).map
      fun p => p.2.map fun l => l / p.1)
  else none

lemma zip_map_getD (A : List ℂ) (B : List (Option ℂ)) (k : ℕ)
    (hA : k < A.length) (hB : k < B.length) :
    (((A.zip B).map fun p => p.2.map fun l => l / p.1).getD k none)
      = (B.getD k none).map fun l => l / A.getD k 0 := by
  have hk : k < ((A.zip B).map fun p => p.2.map fun l => l / p.1).length := by
    rw [List.length_map, List.length_zip]
    omega
  rw [List.getD_eq_getElem _ _ hk, List.getElem_map, List.getElem_zip,
    List.getD_eq_getElem _ _ hA, List.getD_eq_getElem _ _ hB]

/-- CLAIM C5: for a long preamble of length `5L/2` and a reference of length
`L`, the equalisation vector has length `L`, element `k` is absent iff the
reference element `k` is absent, and present elements equal
`R[k] / FFT(avg)[k]` with `avg[i] = (long[L/2+i] + long[3L/2+i]) / 2`. -/
theorem equalization_pointwise (long ltsTime : List ℂ)
    (ltsFreq : List (Option ℂ))
    (hlong : long.length = 5 * ltsTime.length / 2)
    (hfreq : ltsFreq.length = ltsTime.length) :
    ∃ eqv, estimate_subcarrier_equalization long ltsTime ltsFreq = some eqv ∧
      eqv.length = ltsTime.length ∧
      ∀ k, k < ltsTime.length →
        ((eqv.getD k none = none ↔ ltsFreq.getD k none = none) ∧
          ∀ r, ltsFreq.getD k none = some r →
            eqv.getD k none =
              some (r / (invDFT (ltsAvg long ltsTime.length)).getD k 0)) := by
  refine ⟨((invDFT (ltsAvg long ltsTime.length)).zip ltsFreq).map
    (fun p => p.2.map fun l => l / p.1), ?_, ?_, ?_⟩
  · unfold estimate_subcarrier_equalization
    rw [if_pos hlong]
  · rw [List.length_map, List.length_zip, invDFT_length, ltsAvg_length, hfreq]
    omega
  · intro k hk
    have hA : k < (invDFT (ltsAvg long ltsTime.length)).length := by
      rw [invDFT_length, ltsAvg_length]; exact hk
    have hB : k < ltsFreq.length := by rw [hfreq]; exact hk
    rw [zip_map_getD _ _ _ hA hB]
    constructor
    · cases hF : ltsFreq.getD k none <;> simp [hF]
    · intro r hr
      rw [hr]
      rfl

/-- Witness for C5 at `L = 2` with one absent and one present subcarrier. -/
theorem equalization_pointwise_witness :
    (([(0 : ℂ), 0, 0, 0, 0]).length = 5 * ([(1 : ℂ), 1]).length / 2) ∧
      ∃ eqv, estimate_subcarrier_equalization [(0 : ℂ), 0, 0, 0, 0]
          [(1 : ℂ), 1] [none, some 1] = some eqv ∧
        eqv.length = ([(1 : ℂ), 1]).length ∧
        ∀ k, k < ([(1 : ℂ), 1]).length →
          ((eqv.getD k none = none ↔
              ([none, some (1 : ℂ)] : List (Option ℂ)).getD k none = none) ∧
            ∀ r, ([none, some (1 : ℂ)] : List (Option ℂ)).getD k none = some r →
              eqv.getD k none =
                some (r / (invDFT (ltsAvg [(0 : ℂ), 0, 0, 0, 0]
                  ([(1 : ℂ), 1]).length)).getD k 0)) :=
  ⟨by simp, equalization_pointwise _ _ _ (by simp) (by simp)⟩

/-! ## 802.11 packet parser (`parse_80211.rs`) -/

/-- Model of `equalize_symbol` (equalization.rs lines 39-56); the length
`assert!` is the `none` branch.  Present subcarriers are kept as
`FFT(sym)[k] · eq[k] / L`, absent ones dropped (`filter_map`). -/
noncomputable def equalize_symbol (samps : List ℂ)
    (equalization : List (Option ℂ)) : Option (List ℂ) :=
  if samps.length = equalization.length then
    some (((invDFT samps).zip equalization).filterMap
      fun p => p.2.map fun e => p.1 * e / (samps.length : ℂ))
  else none

/-- Root-sum-square as computed by the parser:
`xs.map(norm_sqr).sum().sqrt()`. -/
noncomputable def rmsOf (l : List ℂ) : ℝ :=
  Real.sqrt ((l.map Complex.normSq).sum)

/-- The symbol slice read at loop position `i`
(parse_80211.rs line 40): `samps[i + L/4 .. i + 5L/4]`. -/
def symSlice (samps : List ℂ) (L i : ℕ) : List ℂ :=
  (samps.drop (i + L / 4)).take (i + 5 * L / 4 - (i + L / 4))

/-- The data-symbol loop of `parse_80211_pkt` (parse_80211.rs lines 37-50),
with a fuel argument standing for the well-foundedness of the loop (Rust
terminates because `i` strictly grows as long as `L > 0`; exhausted fuel is
`none` and is never reached under the fuel bound used by the caller). -/
noncomputable def parseLoop (samps : List ℂ) (cfo : ℝ) (eqz : List (Option ℂ))
    (pkt_rms : ℝ) (L : ℕ) : ℕ → ℕ → Option (List ℂ)
  | i, 0 => if i < samps.length - 5 * L / 4 then none else some []
  | i, fuel + 1 =>
    if i < samps.length - 5 * L / 4 then
      if rmsOf (symSlice samps L i) < 1 / 10 * pkt_rms then some []
      else
        match equalize_symbol (correct_cfo (symSlice samps L i) cfo) eqz with
        | none => none
        | some sym =>
          match parseLoop samps cfo eqz pkt_rms L (i + 5 * L / 4) fuel with
          | none => none
          | some rest => some (sym ++ rest)
    else some []

/-- The fields of `ChannelEstConfig` consulted by `parse_80211_pkt`:
`pkt_spacing`, the STS, the time-domain LTS and its frequency-domain
reference. -/
structure EstCfg where
  pkt_spacing : ℕ
  sts : List ℂ
  lts : List ℂ
  ltsFreq : List (Option ℂ)

/-- Bridge from the analytic sample type to the ring-level pair type used by
the aligner. -/
def Cpx.ofComplex (z : ℂ) : Cpx ℝ := ⟨z.re, z.im⟩

/-- Model of `parse_80211_pkt` (parse_80211.rs lines 10-52): the initial
length `assert!`, the `..lts_bound` slice, the checked subtraction
`lts_start - short_len`, the `long` slice, the callee `assert!`s and the
final `lts_len % 4` assert are all `none` branches (panics). -/
noncomputable def parse_80211_pkt (samps : List ℂ) (cfg : EstCfg) :
    Option (List ℂ) :=
  if 3 * cfg.lts.length / 2 + 10 * cfg.sts.length < samps.length then
    if cfg.pkt_spacing + 10 * cfg.sts.length + 5 * cfg.lts.length / 2 ≤
        samps.length then
      match lts_align
          ((samps.take (cfg.pkt_spacing + 10 * cfg.sts.length +
            5 * cfg.lts.length / 2)).map Cpx.ofComplex)
          (cfg.lts.map Cpx.ofComplex) with
      | none => none
      | some lts_start =>
        if 10 * cfg.sts.length ≤ lts_start ∧
            lts_start + 5 * cfg.lts.length / 2 ≤ samps.length then
          match estimate_cfo
              ((samps.drop (lts_start - 10 * cfg.sts.length)).take
                (10 * cfg.sts.length))
              ((samps.drop lts_start).take (5 * cfg.lts.length / 2))
              cfg.sts.length cfg.lts.length with
          | none => none
          | some cfo =>
            match estimate_subcarrier_equalization
                (correct_cfo ((samps.drop lts_start).take
                  (5 * cfg.lts.length / 2)) cfo)
                cfg.lts cfg.ltsFreq with
            | none => none
            | some eqz =>
              if cfg.lts.length % 4 = 0 then
                parseLoop samps cfo eqz
                  (rmsOf ((samps.drop lts_start).take (5 * cfg.lts.length / 2)))
                  cfg.lts.length (lts_start + 5 * cfg.lts.length / 2)
                  (samps.length + 1)
              else none
        else none
    else none
  else none

/-- Number of samples strictly past position `i` in the buffer. -/
def remainPast (samps : List ℂ) (i : ℕ) : ℕ := samps.length - (i + 1)

/-- The constellation points decoded from the symbol at loop position `i`. -/
noncomputable def symOut (samps : List ℂ) (cfo : ℝ) (eqz : List (Option ℂ))
    (L i : ℕ) : List ℂ :=
  (equalize_symbol (correct_cfo (symSlice samps L i) cfo) eqz).getD []

lemma symSlice_length (samps : List ℂ) (L i : ℕ) (hL4 : L % 4 = 0)
    (hg : i < samps.length - 5 * L / 4) :
    (symSlice samps L i).length = L := by
  unfold symSlice
  rw [List.length_take, List.length_drop]
  have h1 : i + 5 * L / 4 - (i + L / 4) = L := by omega
  rw [h1]
  have h2 : L ≤ samps.length - (i + L / 4) := by omega
  omega

lemma equalize_symbol_total (samps : List ℂ) (eqz : List (Option ℂ))
    (h : samps.length = eqz.length) :
    ∃ sym, equalize_symbol samps eqz = some sym := by
  unfold equalize_symbol
  rw [if_pos h]
  exact ⟨_, rfl⟩

/-- Unfolded characterisation of the data-symbol loop: starting at `i`, the
loop decodes K symbols read at positions `i + k·(5L/4)`, continuing exactly
while at least `5L/4` samples remain past the position and the symbol RMS is
at least a tenth of the preamble RMS, and stopping at the first position
where one of those fails. -/
lemma parseLoop_spec (samps : List ℂ) (cfo : ℝ) (eqz : List (Option ℂ))
    (pkt_rms : ℝ) (L : ℕ) (hL : 0 < L) (hL4 : L % 4 = 0)
    (heq : eqz.length = L) :
    ∀ (fuel i : ℕ), samps.length < fuel + i →
      ∃ K : ℕ,
        (∀ k < K, 5 * L / 4 ≤ remainPast samps (i + k * (5 * L / 4)) ∧
          ¬ rmsOf (symSlice samps L (i + k * (5 * L / 4))) <
            1 / 10 * pkt_rms) ∧
        (remainPast samps (i + K * (5 * L / 4)) < 5 * L / 4 ∨
          rmsOf (symSlice samps L (i + K * (5 * L / 4))) <
            1 / 10 * pkt_rms) ∧
        parseLoop samps cfo eqz pkt_rms L i fuel =
          some (((List.range K).map fun k =>
            symOut samps cfo eqz L (i + k * (5 * L / 4))).flatten) := by
  intro fuel
  induction fuel with
  | zero =>
    intro i hfuel
    have hg : ¬ i < samps.length - 5 * L / 4 := by omega
    refine ⟨0, fun k hk => absurd hk (Nat.not_lt_zero k), ?_, ?_⟩
    · left
      unfold remainPast
      omega
    · simp [parseLoop, hg]
  | succ fuel ih =>
    intro i hfuel
    by_cases hg : i < samps.length - 5 * L / 4
    · by_cases hrms : rmsOf (symSlice samps L i) < 1 / 10 * pkt_rms
      · refine ⟨0, fun k hk => absurd hk (Nat.not_lt_zero k), ?_, ?_⟩
        · right
          simpa using hrms
        · simp only [parseLoop]
          rw [if_pos hg, if_pos hrms]
          simp
      · have hslen : (symSlice samps L i).length = L :=
          symSlice_length samps L i hL4 hg
        obtain ⟨sym, hsym⟩ := equalize_symbol_total
          (correct_cfo (symSlice samps L i) cfo) eqz
          (by rw [correct_cfo_length, hslen, heq])
        obtain ⟨K', hcont, hstop, heqn⟩ := ih (i + 5 * L / 4) (by omega)
        refine ⟨K' + 1, ?_, ?_, ?_⟩
        · intro k hk
          cases k with
          | zero =>
            constructor
            · simp only [Nat.zero_mul, Nat.add_zero]
              unfold remainPast
              omega
            · simpa using hrms
          | succ k =>
            have hk' : k < K' := by omega
            have harith : i + 5 * L / 4 + k * (5 * L / 4) =
                i + (k + 1) * (5 * L / 4) := by ring
            have := hcont k hk'
            rwa [harith] at this
        · have harith : i + 5 * L / 4 + K' * (5 * L / 4) =
              i + (K' + 1) * (5 * L / 4) := by ring
          rw [← harith]
          exact hstop
        · have hstep : parseLoop samps cfo eqz pkt_rms L i (fuel + 1) =
              some (sym ++ ((List.range K').map fun k =>
                symOut samps cfo eqz L
                  (i + 5 * L / 4 + k * (5 * L / 4))).flatten) := by
            simp only [parseLoop]
            rw [if_pos hg, if_neg hrms, hsym, heqn]
          rw [hstep]
          congr 1
          rw [List.range_succ_eq_map, List.map_cons]
          have hf0 : symOut samps cfo eqz L (i + 0 * (5 * L / 4)) = sym := by
            simp [symOut, hsym]
          rw [List.map_map]
          have hmap : (List.range K').map
              ((fun k => symOut samps cfo eqz L (i + k * (5 * L / 4))) ∘
                Nat.succ) =
              (List.range K').map fun k =>
                symOut samps cfo eqz L (i + 5 * L / 4 + k * (5 * L / 4)) := by
            refine List.map_congr_left fun k _ => ?_
            show symOut samps cfo eqz L (i + (k + 1) * (5 * L / 4)) = _
            congr 1
            ring
          rw [hmap, hf0]
          simp
    · refine ⟨0, fun k hk => absurd hk (Nat.not_lt_zero k), ?_, ?_⟩
      · left
        unfold remainPast
        omega
      · simp [parseLoop, hg]

/-- CLAIM C7: in the data-symbol loop of `parse_80211_pkt`, iteration starts
at `i = lts_start + 5L/2`, each step reads `samps[i + L/4 .. i + 5L/4]` and
advances by `5L/4`, and the loop stops exactly when the symbol RMS drops
below a tenth of the preamble RMS or fewer than `5L/4` samples remain past
`i`. -/
theorem parse_loop_structure (samps : List ℂ) (cfo : ℝ)
    (eqz : List (Option ℂ)) (pkt_rms : ℝ) (L lts_start fuel : ℕ)
    (hL : 0 < L) (hL4 : L % 4 = 0) (heq : eqz.length = L)
    (hfuel : samps.length < fuel + (lts_start + 5 * L / 2)) :
    ∃ K : ℕ,
      (∀ k < K, 5 * L / 4 ≤
          remainPast samps (lts_start + 5 * L / 2 + k * (5 * L / 4)) ∧
        ¬ rmsOf (symSlice samps L
            (lts_start + 5 * L / 2 + k * (5 * L / 4))) < 1 / 10 * pkt_rms) ∧
      (remainPast samps (lts_start + 5 * L / 2 + K * (5 * L / 4)) <
          5 * L / 4 ∨
        rmsOf (symSlice samps L
          (lts_start + 5 * L / 2 + K * (5 * L / 4))) < 1 / 10 * pkt_rms) ∧
      parseLoop samps cfo eqz pkt_rms L (lts_start + 5 * L / 2) fuel =
        some (((List.range K).map fun k =>
          symOut samps cfo eqz L
            (lts_start + 5 * L / 2 + k * (5 * L / 4))).flatten) :=
  parseLoop_spec samps cfo eqz pkt_rms L hL hL4 heq fuel
    (lts_start + 5 * L / 2) hfuel

/-- Witness for C7 on an empty buffer: the loop stops immediately with no
symbols. -/
theorem parse_loop_structure_witness :
    (([none, none, none, none] : List (Option ℂ)).length = 4) ∧
      ∃ K : ℕ,
        (∀ k < K, 5 * 4 / 4 ≤
            remainPast ([] : List ℂ) (0 + 5 * 4 / 2 + k * (5 * 4 / 4)) ∧
          ¬ rmsOf (symSlice ([] : List ℂ) 4
              (0 + 5 * 4 / 2 + k * (5 * 4 / 4))) < 1 / 10 * (0 : ℝ)) ∧
        (remainPast ([] : List ℂ) (0 + 5 * 4 / 2 + K * (5 * 4 / 4)) <
            5 * 4 / 4 ∨
          rmsOf (symSlice ([] : List ℂ) 4
            (0 + 5 * 4 / 2 + K * (5 * 4 / 4))) < 1 / 10 * (0 : ℝ)) ∧
        parseLoop ([] : List ℂ) 0 [none, none, none, none] 0 4
            (0 + 5 * 4 / 2) 1 =
          some (((List.range K).map fun k =>
            symOut ([] : List ℂ) 0 [none, none, none, none] 4
              (0 + 5 * 4 / 2 + k * (5 * 4 / 4))).flatten) :=
  ⟨rfl, parse_loop_structure ([] : List ℂ) 0 [none, none, none, none] 0 4 0 1
    (by decide) (by decide) rfl (by decide)⟩
